import Mathlib

/-!
Shallow embedding of the `chunked-hasher` Rust library (src/lib.rs,
src/hashers/mod.rs, src/hashers/sha2.rs).

Modelling conventions:
* `u64` values are `Nat`.  No arithmetic in the scopes proved below can
  overflow 64 bits, so no `% 2^64` reductions are needed (the one place a
  wrap could occur, `next_chunk * chunk_size`, stays below `2^64` in every
  run considered).
* The Digest Provider (`hashers::Hasher::hash_bytes`, a pure function from
  byte slices to digest bytes per the trait contract) is a parameter
  `H : List Nat → List Nat`; bytes are `Nat`s.
* The seekable source (`ReadAndSeek`) is modelled by an oracle
  `src : Nat → Nat → Nat → StepResp`: at call number `t`, after a seek to
  absolute offset `off` and a read into a buffer of `size` bytes, the
  source either fails the seek, fails the read, or returns the list of
  bytes it placed at the front of the buffer (a well-behaved reader writes
  exactly the returned prefix; the rest of the zero-initialized buffer
  stays zero).
* `anyhow::Result<Self>` is `Except String ChunkedHasher`, with the exact
  `ensure!` messages.
* The `f64` computation inside `chunk_count` is modelled exactly:
  `u64 -> f64` conversion and `f64` division both round to nearest, ties
  to even mantissa; doubles are `m * 2^(e-52)` with `2^52 ≤ m ≤ 2^53`,
  `f64::ceil` is exact on them, and `as u64` truncates and saturates at
  `2^64 - 1`.  All of this is expressed over `Nat` (see `rneDiv`,
  `roundU64toF64`, `ceilF64DivToU64`).
-/

/-- `Chunk` (src/lib.rs lines 171-180): index, size, hash of one chunk.
`PartialEq` in the source compares the three fields, which is exactly
structural equality here. -/
structure Chunk where
  index : Nat
  size : Nat
  hash : List Nat
deriving DecidableEq, Repr

/-- Mutable state of `ChunkedHasher` (src/lib.rs lines 14-27): effective
chunk size, next chunk index, cumulative bytes read, declared stream size.
The borrowed source and the hasher type parameter live outside the state
(they are passed to `ChunkedHasher.next` explicitly). -/
structure ChunkedHasher where
  chunk_size : Nat
  next_chunk : Nat
  read_data : Nat
  stream_size : Nat
deriving DecidableEq, Repr

/-- Outcome of one seek-then-read interaction with the underlying source. -/
inductive StepResp where
  | seekFail
  | readFail
  | readOk (bytes : List Nat)
deriving DecidableEq, Repr

/-- Exact integer ceiling division `⌈a / b⌉` (the mathematical value the
spec writes as `ceil(stream_size / chunk_size)`). -/
def cdiv (a b : Nat) : Nat :=
  (a + b - 1) / b

/-- `ChunkedHasher::fixed_chunks` (src/lib.rs lines 53-75): two `ensure!`
guards, then `chunk_size = if fixed_size <= stream_size { fixed_size }
else { stream_size }`. -/
def ChunkedHasher.fixed_chunks (stream_size fixed_size : Nat) :
    Except String ChunkedHasher :=
  if 0 < stream_size then
    if 0 < fixed_size then
      Except.ok
        { chunk_size := if fixed_size ≤ stream_size then fixed_size else stream_size
          next_chunk := 0
          read_data := 0
          stream_size := stream_size }
    else Except.error "Fixed size must be greater than zero"
  else Except.error "Stream size must be greater than zero"

/-- `ChunkedHasher::dynamic_chunks` (src/lib.rs lines 101-126): two
`ensure!` guards, then `chunk_size = if dynamic_amount <= stream_size
{ (stream_size - stream_size % dynamic_amount) / dynamic_amount } else
{ stream_size }`. -/
def ChunkedHasher.dynamic_chunks (stream_size dynamic_amount : Nat) :
    Except String ChunkedHasher :=
  if 0 < stream_size then
    if 0 < dynamic_amount then
      Except.ok
        { chunk_size :=
            if dynamic_amount ≤ stream_size then
              (stream_size - stream_size % dynamic_amount) / dynamic_amount
            else stream_size
          next_chunk := 0
          read_data := 0
          stream_size := stream_size }
    else Except.error "Dynamic amount must be greater than zero"
  else Except.error "Stream size must be greater than zero"

/-- Round `num / den` (with `den > 0`) to the nearest integer, ties to the
even integer: the IEEE-754 round-to-nearest-even rule expressed on an
integer quotient. -/
def rneDiv (num den : Nat) : Nat :=
  let q := num / den
  let r := num % den
  if 2 * r < den then q
  else if den < 2 * r then q + 1
  else if q % 2 = 0 then q else q + 1

/-- Exact value of `n as f64` for a `u64` value `n`: `n` itself if it fits
in 53 bits of mantissa, otherwise the nearest (ties to even) multiple of
`2^(log2 n - 52)`.  The result is always a natural number. -/
def roundU64toF64 (n : Nat) : Nat :=
  if n = 0 then 0
  else
    let e := Nat.log2 n
    if e ≤ 52 then n
    else rneDiv n (2 ^ (e - 52)) * 2 ^ (e - 52)

/-- Exact value of `f64::ceil(a' / b') as u64` where `a'`, `b'` are the
(already rounded, integer-valued) doubles obtained from two `u64`s with
`1 ≤ b' ≤ a'`.  The quotient lies in the binade `[2^e, 2^(e+1)]` with
`e = log2 (a / b)`; the IEEE division rounds it to the nearest multiple of
`2^(e-52)` (ties to even), `f64::ceil` is exact, and the final cast
truncates. -/
def ceilF64DivToU64 (a b : Nat) : Nat :=
  let e := Nat.log2 (a / b)
  if e ≤ 52 then
    (rneDiv (a * 2 ^ (52 - e)) b + (2 ^ (52 - e) - 1)) / 2 ^ (52 - e)
  else
    rneDiv a (b * 2 ^ (e - 52)) * 2 ^ (e - 52)

/-- `ChunkedHasher::chunk_count` (src/lib.rs lines 134-136):
`f64::ceil(self.stream_size as f64 / self.chunk_size as f64) as u64`,
with the saturating `as u64` cast. -/
def ChunkedHasher.chunk_count (s : ChunkedHasher) : Nat :=
  min (ceilF64DivToU64 (roundU64toF64 s.stream_size) (roundU64toF64 s.chunk_size))
    (2 ^ 64 - 1)

/-- One call of `<ChunkedHasher as Iterator>::next` (src/lib.rs lines
142-167).  `t` is the ordinal of this call among the calls that reached the
seek (it indexes the oracle).  The source is queried at the absolute offset
`next_chunk * chunk_size` the code seeks to, with the buffer length
`chunk_size` the code allocates (zero-initialized).  On a successful read
of `bytes` the buffer hashed is `bytes` followed by the untouched zero
tail, `read_data` grows by the byte count, and the emitted descriptor is
`{index: next_chunk - 1 (after the increment), size: bytes read, hash}`.
On a read failure `next_chunk` has already been incremented; on a seek
failure nothing changed.  No failure flag is stored. -/
def ChunkedHasher.next (H : List Nat → List Nat)
    (src : Nat → Nat → Nat → StepResp) (t : Nat) (s : ChunkedHasher) :
    Option Chunk × ChunkedHasher :=
  if s.stream_size ≤ s.read_data then (none, s)
  else
    match src t (s.next_chunk * s.chunk_size) s.chunk_size with
    | StepResp.seekFail => (none, s)
    | StepResp.readFail => (none, { s with next_chunk := s.next_chunk + 1 })
    | StepResp.readOk bytes =>
      let placed := bytes.take s.chunk_size
      let buf := placed ++ List.replicate (s.chunk_size - placed.length) 0
      (some { index := s.next_chunk, size := placed.length, hash := H buf },
        { s with
            next_chunk := s.next_chunk + 1
            read_data := s.read_data + placed.length })

/-- The descriptor sequence a conforming consumer collects: call `next`
until the first `None` (the `Iterator` protocol), up to `fuel` calls. -/
def ChunkedHasher.run (H : List Nat → List Nat)
    (src : Nat → Nat → Nat → StepResp) :
    Nat → Nat → ChunkedHasher → List Chunk
  | 0, _, _ => []
  | fuel + 1, t, s =>
    match ChunkedHasher.next H src t s with
    | (some c, s') => c :: ChunkedHasher.run H src fuel (t + 1) s'
    | (none, _) => []

/-- The raw results of `fuel` consecutive `next` calls, not stopping at
`None` (a caller is free to keep calling a Rust iterator after `None`). -/
def ChunkedHasher.callResults (H : List Nat → List Nat)
    (src : Nat → Nat → Nat → StepResp) :
    Nat → Nat → ChunkedHasher → List (Option Chunk)
  | 0, _, _ => []
  | fuel + 1, t, s =>
    (ChunkedHasher.next H src t s).1 ::
      ChunkedHasher.callResults H src fuel (t + 1) (ChunkedHasher.next H src t s).2

/-- Number of descriptors among a list of call results. -/
def producedCount (l : List (Option Chunk)) : Nat :=
  (l.filterMap id).length

/-- A well-behaved source of declared length `L` with byte content `data`:
every seek succeeds and every read from offset `off` into a buffer of
`size` bytes returns `min size (L - off)` bytes of actual content — the
"every read returns min(chunk_size, remaining declared bytes)" regime of
the claims. -/
def goodSrc (data : Nat → Nat) (L : Nat) : Nat → Nat → Nat → StepResp :=
  fun _ off size => StepResp.readOk ((List.range' off (min size (L - off))).map data)

/-- The descriptor the iterator emits for chunk `i` over `goodSrc data L`
with effective chunk size `S`. -/
def goodChunk (H : List Nat → List Nat) (data : Nat → Nat) (L S i : Nat) : Chunk :=
  { index := i
    size := min S (L - i * S)
    hash := H ((List.range' (i * S) (min S (L - i * S))).map data ++
      List.replicate (S - min S (L - i * S)) 0) }

/-! ### Arithmetic helpers for the exact ceiling `cdiv` -/

theorem cdiv_eq_ceilDiv (a b : Nat) : cdiv a b = a ⌈/⌉ b :=
  (Nat.ceilDiv_eq_add_pred_div a b).symm

theorem cdiv_le_iff (a b c : Nat) (hb : 0 < b) : cdiv a b ≤ c ↔ a ≤ b * c := by
  rw [cdiv_eq_ceilDiv]; exact ceilDiv_le_iff_le_mul hb

theorem lt_cdiv_iff (a b i : Nat) (hb : 0 < b) : i < cdiv a b ↔ i * b < a := by
  rw [← Nat.not_le, ← Nat.not_le, cdiv_le_iff a b i hb, Nat.mul_comm]

theorem cdiv_pos (a b : Nat) (hb : 0 < b) (ha : 0 < a) : 0 < cdiv a b := by
  have h := (lt_cdiv_iff a b 0 hb).mpr (by simpa using ha)
  exact h

theorem cdiv_le_self (a b : Nat) (hb : 0 < b) : cdiv a b ≤ a := by
  rw [cdiv_le_iff a b a hb]
  exact Nat.le_mul_of_pos_left a hb

theorem le_cdiv_mul (a b : Nat) (hb : 0 < b) : a ≤ cdiv a b * b := by
  have h := (cdiv_le_iff a b (cdiv a b) hb).mp le_rfl
  rw [Nat.mul_comm]
  exact h

theorem cdiv_self_eq_one (a : Nat) (ha : 0 < a) : cdiv a a = 1 := by
  have h1 : cdiv a a ≤ 1 := (cdiv_le_iff a a 1 ha).mpr (by omega)
  have h2 : 0 < cdiv a a := cdiv_pos a a ha ha
  omega

theorem cdiv_of_dvd (a b : Nat) (hb : 0 < b) (h : b ∣ a) : cdiv a b = a / b := by
  obtain ⟨m, rfl⟩ := h
  unfold cdiv
  have hb1 : b * m + b - 1 = b * m + (b - 1) := by omega
  rw [hb1, Nat.mul_add_div hb, Nat.div_eq_of_lt (by omega), Nat.mul_div_cancel_left m hb]
  omega

theorem cdiv_of_not_dvd (a b : Nat) (hb : 0 < b) (h : ¬ b ∣ a) : cdiv a b = a / b + 1 := by
  have hmod : a % b ≠ 0 := fun hc => h (Nat.dvd_of_mod_eq_zero hc)
  have hdm := Nat.div_add_mod a b
  have hlt := Nat.mod_lt a hb
  unfold cdiv
  apply Nat.div_eq_of_lt_le
  · rw [Nat.add_mul, Nat.one_mul, Nat.mul_comm (a / b) b]
    omega
  · rw [Nat.add_mul, Nat.add_mul, Nat.one_mul, Nat.mul_comm (a / b) b]
    omega

/-! ### Shape of constructed iterators -/

theorem fixed_chunks_ok (L S : Nat) (hL : 0 < L) (hS : 0 < S) :
    ChunkedHasher.fixed_chunks L S =
      Except.ok ⟨if S ≤ L then S else L, 0, 0, L⟩ := by
  unfold ChunkedHasher.fixed_chunks
  rw [if_pos hL, if_pos hS]

theorem dynamic_chunks_ok (L N : Nat) (hL : 0 < L) (hN : 0 < N) :
    ChunkedHasher.dynamic_chunks L N =
      Except.ok ⟨if N ≤ L then (L - L % N) / N else L, 0, 0, L⟩ := by
  unfold ChunkedHasher.dynamic_chunks
  rw [if_pos hL, if_pos hN]

theorem sub_mod_div (L N : Nat) (hN : 0 < N) : (L - L % N) / N = L / N := by
  have hdm := Nat.div_add_mod L N
  have h1 : L - L % N = N * (L / N) := by omega
  rw [h1, Nat.mul_div_cancel_left _ hN]

/-- Any successfully constructed iterator (either mode) has `next_chunk = 0`,
`read_data = 0`, the declared `stream_size`, and an effective chunk size
with `1 ≤ chunk_size ≤ stream_size`; moreover `stream_size > 0`. -/
theorem constructed_shape (L p : Nat) (s : ChunkedHasher)
    (h : ChunkedHasher.fixed_chunks L p = Except.ok s ∨
         ChunkedHasher.dynamic_chunks L p = Except.ok s) :
    s.stream_size = L ∧ s.next_chunk = 0 ∧ s.read_data = 0 ∧
      0 < s.chunk_size ∧ s.chunk_size ≤ L ∧ 0 < L ∧ 0 < p := by
  rcases h with h | h
  · have hL : 0 < L := by
      by_contra hc
      unfold ChunkedHasher.fixed_chunks at h
      rw [if_neg hc] at h
      exact Except.noConfusion h
    have hp : 0 < p := by
      by_contra hc
      unfold ChunkedHasher.fixed_chunks at h
      rw [if_pos hL, if_neg hc] at h
      exact Except.noConfusion h
    rw [fixed_chunks_ok L p hL hp] at h
    have hs : s = ⟨if p ≤ L then p else L, 0, 0, L⟩ := (Except.ok.injEq _ _).mp h.symm
    subst hs
    refine ⟨rfl, rfl, rfl, ?_, ?_, hL, hp⟩ <;> dsimp only <;> split <;> omega
  · have hL : 0 < L := by
      by_contra hc
      unfold ChunkedHasher.dynamic_chunks at h
      rw [if_neg hc] at h
      exact Except.noConfusion h
    have hp : 0 < p := by
      by_contra hc
      unfold ChunkedHasher.dynamic_chunks at h
      rw [if_pos hL, if_neg hc] at h
      exact Except.noConfusion h
    rw [dynamic_chunks_ok L p hL hp] at h
    have hs : s = ⟨if p ≤ L then (L - L % p) / p else L, 0, 0, L⟩ :=
      (Except.ok.injEq _ _).mp h.symm
    subst hs
    refine ⟨rfl, rfl, rfl, ?_, ?_, hL, hp⟩ <;> dsimp only <;> split
    · rw [sub_mod_div L p hp]
      exact Nat.div_pos (by omega) hp
    · exact hL
    · rw [sub_mod_div L p hp]
      exact Nat.div_le_self L p
    · exact Nat.le_refl L

/-! ### Behaviour of `next` and `run` over a well-behaved source -/

theorem next_exhausted (H : List Nat → List Nat) (src : Nat → Nat → Nat → StepResp)
    (u : Nat) (s : ChunkedHasher) (h : s.stream_size ≤ s.read_data) :
    ChunkedHasher.next H src u s = (none, s) := by
  unfold ChunkedHasher.next
  rw [if_pos h]

theorem min_mul_step (t S L : Nat) (h : t * S < L) :
    min (t * S) L + min S (L - t * S) = min ((t + 1) * S) L := by
  rw [Nat.succ_mul]
  omega

theorem next_goodSrc_active (H : List Nat → List Nat) (data : Nat → Nat)
    (L S t u : Nat) (h : t * S < L) :
    ChunkedHasher.next H (goodSrc data L) u ⟨S, t, min (t * S) L, L⟩ =
      (some (goodChunk H data L S t), ⟨S, t + 1, min ((t + 1) * S) L, L⟩) := by
  have hlen : ((List.range' (t * S) (min S (L - t * S))).map data).length =
      min S (L - t * S) := by simp
  have htake : ((List.range' (t * S) (min S (L - t * S))).map data).take S =
      (List.range' (t * S) (min S (L - t * S))).map data :=
    List.take_of_length_le (by rw [hlen]; omega)
  have hstep := min_mul_step t S L h
  simp only [ChunkedHasher.next, goodSrc]
  rw [if_neg (by omega), htake, hlen, hstep]
  rfl

theorem run_goodSrc (H : List Nat → List Nat) (data : Nat → Nat)
    (L S : Nat) (hS : 0 < S) :
    ∀ fuel t, ChunkedHasher.run H (goodSrc data L) fuel t ⟨S, t, min (t * S) L, L⟩ =
      (List.range' t (min fuel (cdiv L S - t))).map (goodChunk H data L S)
  | 0, t => by simp [ChunkedHasher.run]
  | fuel + 1, t => by
    by_cases h : t * S < L
    · have hk : t < cdiv L S := (lt_cdiv_iff L S t hS).mpr h
      have hrec := run_goodSrc H data L S hS fuel (t + 1)
      simp only [ChunkedHasher.run]
      rw [next_goodSrc_active H data L S t t h]
      dsimp only
      rw [hrec]
      have hm : min (fuel + 1) (cdiv L S - t) = min fuel (cdiv L S - (t + 1)) + 1 := by
        omega
      rw [hm, List.range'_succ, List.map_cons]
    · have hk : cdiv L S ≤ t := by
        by_contra hc
        exact h ((lt_cdiv_iff L S t hS).mp (by omega))
      have hmin : min (t * S) L = L := by omega
      simp only [ChunkedHasher.run]
      rw [next_exhausted H _ t _ (by dsimp only; omega)]
      have hz : cdiv L S - t = 0 := by omega
      rw [hz]
      simp

theorem run_goodSrc_zero (H : List Nat → List Nat) (data : Nat → Nat)
    (L S fuel : Nat) (hS : 0 < S) :
    ChunkedHasher.run H (goodSrc data L) fuel 0 ⟨S, 0, 0, L⟩ =
      (List.range' 0 (min fuel (cdiv L S))).map (goodChunk H data L S) := by
  have h := run_goodSrc H data L S hS fuel 0
  simpa using h

theorem sum_sizes (L S : Nat) :
    ∀ k, ((List.range' 0 k).map fun i => min S (L - i * S)).sum = min (k * S) L
  | 0 => by simp
  | k + 1 => by
    rw [List.range'_concat, List.map_append, List.sum_append, sum_sizes L S k]
    have h1 : 0 + 1 * k = k := by omega
    rw [h1]
    simp only [List.map_cons, List.map_nil, List.sum_cons, List.sum_nil, Nat.add_zero]
    rw [Nat.succ_mul]
    omega

theorem indices_of_goodChunks (H : List Nat → List Nat) (data : Nat → Nat)
    (L S : Nat) (l : List Nat) :
    (l.map (goodChunk H data L S)).map Chunk.index = l := by
  simp [goodChunk, Function.comp_def]

/-! ### Exactness of the `f64`-based `chunk_count` below `2^53` -/

theorem log2_eq_of (e n : Nat) (h1 : 2 ^ e ≤ n) (h2 : n < 2 ^ (e + 1)) :
    Nat.log2 n = e := by
  have hn : n ≠ 0 := by
    have h3 : 0 < 2 ^ e := Nat.pow_pos (by omega)
    omega
  have ha : e ≤ Nat.log2 n := (Nat.le_log2 hn).mpr h1
  have hb : Nat.log2 n < e + 1 := (Nat.log2_lt hn).mpr h2
  omega


theorem rneDiv_ge (num den : Nat) : num / den ≤ rneDiv num den := by
  simp only [rneDiv]
  split
  · exact Nat.le_refl _
  split
  · omega
  split <;> omega

theorem rneDiv_le (num den : Nat) : rneDiv num den ≤ num / den + 1 := by
  simp only [rneDiv]
  split
  · omega
  split
  · omega
  split <;> omega

theorem rneDiv_exact (num den : Nat) (hden : 0 < den) (h : den ∣ num) :
    rneDiv num den = num / den := by
  have hmod : num % den = 0 := Nat.mod_eq_zero_of_dvd h
  simp only [rneDiv, hmod]
  rw [if_pos (by omega)]

theorem rneDiv_up (num den : Nat) (h : den < 2 * (num % den)) :
    rneDiv num den = num / den + 1 := by
  simp only [rneDiv]
  rw [if_neg (by omega), if_pos h]

theorem roundU64_id (n : Nat) (h : n ≤ 2 ^ 53) : roundU64toF64 n = n := by
  simp only [roundU64toF64]
  by_cases h0 : n = 0
  · rw [if_pos h0, h0]
  rw [if_neg h0]
  by_cases hle : Nat.log2 n ≤ 52
  · rw [if_pos hle]
  · have hlow : 2 ^ Nat.log2 n ≤ n := (Nat.le_log2 h0).mp le_rfl
    have h53 : 2 ^ 53 ≤ 2 ^ Nat.log2 n := Nat.pow_le_pow_right (by omega) (by omega)
    have hn : n = 2 ^ 53 := by omega
    subst hn
    have hl : Nat.log2 (2 ^ 53) = 53 := log2_eq_of 53 _ (Nat.le_refl _) (by norm_num)
    rw [if_neg hle, hl]
    norm_num [rneDiv]

theorem ceilF64_eq_cdiv (a b : Nat) (hb : 0 < b) (hba : b ≤ a) (ha : a ≤ 2 ^ 53) :
    ceilF64DivToU64 a b = cdiv a b := by
  have hq1 : 0 < a / b := Nat.div_pos hba hb
  have hlow0 : 2 ^ Nat.log2 (a / b) ≤ a / b := (Nat.le_log2 (by omega)).mp le_rfl
  have hhigh0 : a / b < 2 ^ (Nat.log2 (a / b) + 1) :=
    (Nat.log2_lt (by omega)).mp (Nat.lt_succ_self _)
  have hadivb : a / b ≤ a := Nat.div_le_self a b
  simp only [ceilF64DivToU64]
  obtain ⟨e, he⟩ : ∃ e, e = Nat.log2 (a / b) := ⟨_, rfl⟩
  rw [← he]
  rw [← he] at hlow0 hhigh0
  have hlowm : 2 ^ e * b ≤ a := (Nat.le_div_iff_mul_le hb).mp hlow0
  have hpe : 0 < 2 ^ e := Nat.pow_pos (by omega)
  have he53 : e ≤ 53 := by
    by_contra hc
    have h1 : 2 ^ 54 ≤ 2 ^ e := Nat.pow_le_pow_right (by omega) (by omega)
    have h2 : 2 ^ e ≤ a := le_trans hlow0 hadivb
    omega
  by_cases hle : e ≤ 52
  · rw [if_pos hle]
    obtain ⟨d, hd⟩ : ∃ d, d = 2 ^ (52 - e) := ⟨_, rfl⟩
    rw [← hd]
    have hd0 : 0 < d := by
      rw [hd]
      exact Nat.pow_pos (by omega)
    have hsplit : (2 : Nat) ^ 53 = 2 ^ e * 2 ^ (53 - e) := by
      rw [← Nat.pow_add]
      congr 1
      omega
    have h2d : 2 * d = 2 ^ (53 - e) := by
      rw [hd, ← Nat.pow_succ']
      congr 1
      omega
    have hb2 : b ≤ 2 ^ (53 - e) := by
      have h1 : 2 ^ e * b ≤ 2 ^ e * 2 ^ (53 - e) := by
        rw [← hsplit]
        omega
      exact Nat.le_of_mul_le_mul_left h1 hpe
    by_cases hdvd : b ∣ a
    · have hcd : cdiv a b = a / b := cdiv_of_dvd a b hb hdvd
      have hnum_dvd : b ∣ a * d := Dvd.dvd.mul_right hdvd d
      have hrne : rneDiv (a * d) b = a * d / b := rneDiv_exact _ _ hb hnum_dvd
      obtain ⟨m, hm⟩ := hdvd
      have hdiv : a * d / b = m * d := by
        rw [hm, Nat.mul_assoc, Nat.mul_div_cancel_left _ hb]
      have hmdivb : a / b = m := by rw [hm, Nat.mul_div_cancel_left _ hb]
      rw [hrne, hdiv, hcd, hmdivb]
      have hfin : m * d + (d - 1) = d * m + (d - 1) := by ring
      rw [hfin, Nat.mul_add_div hd0, Nat.div_eq_of_lt (by omega)]
      omega
    · have hcd : cdiv a b = a / b + 1 := cdiv_of_not_dvd a b hb hdvd
      have hdm := Nat.div_add_mod a b
      have hmlt := Nat.mod_lt a hb
      have hmod1 : 1 ≤ a % b := by
        rcases Nat.eq_zero_or_pos (a % b) with hz | hpos
        · exact absurd (Nat.dvd_of_mod_eq_zero hz) hdvd
        · exact hpos
      have ha_lt : a < (a / b + 1) * b := by
        rw [Nat.add_mul, Nat.one_mul, Nat.mul_comm (a / b) b]
        omega
      have hub : rneDiv (a * d) b ≤ (a / b + 1) * d := by
        have h1 : a * d < (a / b + 1) * b * d := mul_lt_mul_of_pos_right ha_lt hd0
        have h2 : a * d / b < (a / b + 1) * d := by
          rw [Nat.div_lt_iff_lt_mul hb]
          calc a * d < (a / b + 1) * b * d := h1
            _ = (a / b + 1) * d * b := by ring
        have h3 := rneDiv_le (a * d) b
        omega
      have hlb : a / b * d + 1 ≤ rneDiv (a * d) b := by
        have hq_ge : a / b * d ≤ a * d / b := by
          rw [Nat.le_div_iff_mul_le hb]
          have h1 : a / b * b ≤ a := Nat.div_mul_le_self a b
          calc a / b * d * b = a / b * b * d := by ring
            _ ≤ a * d := Nat.mul_le_mul_right d h1
        by_cases hq : a / b * d + 1 ≤ a * d / b
        · exact le_trans hq (rneDiv_ge _ _)
        · have hqe : a * d / b = a / b * d := by omega
          have hmul : a * d = b * (a / b) * d + a % b * d := by
            calc a * d = (b * (a / b) + a % b) * d := by rw [hdm]
              _ = b * (a / b) * d + a % b * d := by rw [Nat.add_mul]
          have hr_eq : a * d % b = a % b * d := by
            have hdm2 := Nat.div_add_mod (a * d) b
            rw [hqe] at hdm2
            have hassoc : b * (a / b * d) = b * (a / b) * d := by ring
            omega
          have h2r : b < 2 * (a * d % b) := by
            rw [hr_eq]
            have hge : 2 ^ (53 - e) ≤ a % b * (2 * d) := by
              rw [h2d]
              exact Nat.le_mul_of_pos_left _ hmod1
            have hne : a % b * (2 * d) ≠ b := by
              intro hc
              have hble : a % b * (2 * d) ≤ 2 * d := by omega
              have hab1 : a % b = 1 := by
                rcases Nat.lt_or_ge (a % b) 2 with hlt2 | hge2
                · omega
                · exfalso
                  have hx : 2 * (2 * d) ≤ a % b * (2 * d) := Nat.mul_le_mul_right _ hge2
                  omega
              have hcb : b = 2 * d := by
                rw [hab1, Nat.one_mul] at hc
                omega
              have hmle : b * 2 ^ e ≤ b * (a / b) := Nat.mul_le_mul_left b hlow0
              have hbe : b * 2 ^ e = 2 ^ 53 := by
                rw [hcb, h2d, Nat.mul_comm]
                exact hsplit.symm
              omega
            have hgeb : b ≤ a % b * (2 * d) := by omega
            have hra : a % b * (2 * d) = 2 * (a % b * d) := by ring
            omega
          rw [rneDiv_up _ _ h2r, hqe]
      rw [Nat.add_mul, Nat.one_mul] at hub
      apply Nat.div_eq_of_lt_le
      · rw [hcd, Nat.add_mul, Nat.one_mul]
        omega
      · rw [hcd]
        have hexp : (a / b + 1 + 1) * d = a / b * d + d + d := by ring
        rw [hexp]
        omega
  · have he' : e = 53 := by omega
    have hq : a / b = 2 ^ 53 := by
      have h1 : 2 ^ 53 ≤ a / b := by
        rw [← he']
        exact hlow0
      omega
    have hdm := Nat.div_add_mod a b
    have hb1 : b = 1 := by
      rcases Nat.lt_or_ge b 2 with hlt | hge
      · omega
      · exfalso
        have hx : 2 * (a / b) ≤ b * (a / b) := Nat.mul_le_mul_right _ hge
        omega
    have ha' : a = 2 ^ 53 := by
      rw [hb1, Nat.div_one] at hq
      exact hq
    rw [if_neg hle, he', hb1, ha']
    norm_num [rneDiv, cdiv]

/-- Below `2^53` the floating-point `chunk_count` computes the exact
ceiling `⌈stream_size / chunk_size⌉`. -/
theorem chunk_count_exact (s : ChunkedHasher) (h1 : 0 < s.chunk_size)
    (h2 : s.chunk_size ≤ s.stream_size) (h3 : s.stream_size ≤ 2 ^ 53) :
    s.chunk_count = cdiv s.stream_size s.chunk_size := by
  unfold ChunkedHasher.chunk_count
  rw [roundU64_id s.stream_size h3, roundU64_id s.chunk_size (by omega),
    ceilF64_eq_cdiv _ _ h1 h2 h3]
  have h4 : cdiv s.stream_size s.chunk_size ≤ s.stream_size := cdiv_le_self _ _ h1
  omega

/-! ### Case analysis of a single `next` call over an arbitrary source -/

theorem next_seekFail (H : List Nat → List Nat) (src : Nat → Nat → Nat → StepResp)
    (t : Nat) (s : ChunkedHasher) (hex : ¬ s.stream_size ≤ s.read_data)
    (hresp : src t (s.next_chunk * s.chunk_size) s.chunk_size = StepResp.seekFail) :
    ChunkedHasher.next H src t s = (none, s) := by
  simp only [ChunkedHasher.next, hresp]
  rw [if_neg hex]

theorem next_readFail (H : List Nat → List Nat) (src : Nat → Nat → Nat → StepResp)
    (t : Nat) (s : ChunkedHasher) (hex : ¬ s.stream_size ≤ s.read_data)
    (hresp : src t (s.next_chunk * s.chunk_size) s.chunk_size = StepResp.readFail) :
    ChunkedHasher.next H src t s = (none, { s with next_chunk := s.next_chunk + 1 }) := by
  simp only [ChunkedHasher.next, hresp]
  rw [if_neg hex]

theorem next_readOk (H : List Nat → List Nat) (src : Nat → Nat → Nat → StepResp)
    (t : Nat) (s : ChunkedHasher) (bytes : List Nat)
    (hex : ¬ s.stream_size ≤ s.read_data)
    (hresp : src t (s.next_chunk * s.chunk_size) s.chunk_size = StepResp.readOk bytes) :
    ChunkedHasher.next H src t s =
      (some { index := s.next_chunk, size := (bytes.take s.chunk_size).length,
              hash := H (bytes.take s.chunk_size ++
                List.replicate (s.chunk_size - (bytes.take s.chunk_size).length) 0) },
        { s with next_chunk := s.next_chunk + 1,
                 read_data := s.read_data + (bytes.take s.chunk_size).length }) := by
  simp only [ChunkedHasher.next, hresp]
  rw [if_neg hex]

theorem producedCount_none (l : List (Option Chunk)) :
    producedCount (none :: l) = producedCount l := by
  simp [producedCount]

theorem producedCount_some (c : Chunk) (l : List (Option Chunk)) :
    producedCount (some c :: l) = producedCount l + 1 := by
  simp [producedCount]

/-- As long as every successful read delivers at least one byte, the
number of descriptors ever produced (even by a caller that keeps calling
past `None`) is bounded by the bytes still to be consumed. -/
theorem producedCount_le (H : List Nat → List Nat) (src : Nat → Nat → Nat → StepResp)
    (hsrc : ∀ t off sz bs, src t off sz = StepResp.readOk bs → bs ≠ []) :
    ∀ fuel t s, 0 < s.chunk_size →
      producedCount (ChunkedHasher.callResults H src fuel t s) ≤
        s.stream_size - s.read_data
  | 0, t, s => by
    intro hcs
    simp [ChunkedHasher.callResults, producedCount]
  | fuel + 1, t, s => by
    intro hcs
    simp only [ChunkedHasher.callResults]
    by_cases hex : s.stream_size ≤ s.read_data
    · simp only [next_exhausted H src t s hex]
      rw [producedCount_none]
      exact producedCount_le H src hsrc fuel (t + 1) s hcs
    · cases hresp : src t (s.next_chunk * s.chunk_size) s.chunk_size with
      | seekFail =>
        simp only [next_seekFail H src t s hex hresp]
        rw [producedCount_none]
        exact producedCount_le H src hsrc fuel (t + 1) s hcs
      | readFail =>
        simp only [next_readFail H src t s hex hresp]
        rw [producedCount_none]
        exact producedCount_le H src hsrc fuel (t + 1)
          { s with next_chunk := s.next_chunk + 1 } hcs
      | readOk bytes =>
        simp only [next_readOk H src t s bytes hex hresp]
        rw [producedCount_some]
        have hlen : 0 < (bytes.take s.chunk_size).length := by
          have hbne : bytes ≠ [] := hsrc t _ _ bytes hresp
          have h1 : 0 < bytes.length := List.length_pos.mpr hbne
          rw [List.length_take]
          omega
        have ih := producedCount_le H src hsrc fuel (t + 1)
          { s with next_chunk := s.next_chunk + 1,
                   read_data := s.read_data + (bytes.take s.chunk_size).length } hcs
        dsimp only at ih
        omega

/-- If the source fails every operation, every call yields `none`. -/
theorem callResults_all_fail (H : List Nat → List Nat) (src : Nat → Nat → Nat → StepResp)
    (hsrc : ∀ t off sz, src t off sz = StepResp.seekFail ∨ src t off sz = StepResp.readFail) :
    ∀ fuel t s, ChunkedHasher.callResults H src fuel t s = List.replicate fuel none
  | 0, t, s => by simp [ChunkedHasher.callResults]
  | fuel + 1, t, s => by
    simp only [ChunkedHasher.callResults, List.replicate_succ]
    by_cases hex : s.stream_size ≤ s.read_data
    · simp only [next_exhausted H src t s hex]
      rw [callResults_all_fail H src hsrc fuel (t + 1) s]
    · rcases hsrc t (s.next_chunk * s.chunk_size) s.chunk_size with hresp | hresp
      · simp only [next_seekFail H src t s hex hresp]
        rw [callResults_all_fail H src hsrc fuel (t + 1) s]
      · simp only [next_readFail H src t s hex hresp]
        rw [callResults_all_fail H src hsrc fuel (t + 1) _]

/-! ### Concrete evaluation of `chunk_count` at `2^53 + 1` -/

theorem log2_pow53succ : Nat.log2 (2 ^ 53 + 1) = 53 :=
  log2_eq_of 53 _ (by norm_num) (by norm_num)

theorem roundU64_big : roundU64toF64 (2 ^ 53 + 1) = 2 ^ 53 := by
  simp only [roundU64toF64]
  rw [if_neg (by norm_num), log2_pow53succ, if_neg (by norm_num)]
  decide

theorem ceilF64_big : ceilF64DivToU64 (2 ^ 53) 1 = 2 ^ 53 := by
  simp only [ceilF64DivToU64]
  rw [Nat.div_one]
  have hl : Nat.log2 (2 ^ 53) = 53 := log2_eq_of 53 _ (Nat.le_refl _) (by norm_num)
  rw [hl, if_neg (by norm_num)]
  decide

/-- The iterator `fixed_chunks (2^53 + 1) 1` answers `chunk_count() = 2^53`:
the `u64 -> f64` conversion of `2^53 + 1` rounds (ties to even) down to
`2^53`, so the computed ceiling undercounts by one. -/
theorem chunk_count_big :
    ChunkedHasher.chunk_count ⟨1, 0, 0, 2 ^ 53 + 1⟩ = 2 ^ 53 := by
  unfold ChunkedHasher.chunk_count
  have h1 : roundU64toF64 (ChunkedHasher.mk 1 0 0 (2 ^ 53 + 1)).stream_size = 2 ^ 53 :=
    roundU64_big
  have h2 : roundU64toF64 (ChunkedHasher.mk 1 0 0 (2 ^ 53 + 1)).chunk_size = 1 :=
    roundU64_id 1 (by norm_num)
  rw [h1, h2, ceilF64_big]
  norm_num

theorem cdiv_one (a : Nat) : cdiv a 1 = a := by
  unfold cdiv
  omega

/-! ### Claim theorems -/

/-- C1 (amended): for every iterator successfully constructed in either
mode with stream size `L > 0` and effective chunk size `S`, provided
`L ≤ 2^53`, `chunk_count()` returns exactly `⌈L / S⌉`, and when every seek
succeeds and every read returns `min(S, remaining declared bytes)` this
value equals the exact number of descriptors the iterator yields before
returning `None`.  (For `L > 2^53` the `f64`-based `chunk_count` can
differ from the exact ceiling — see `c1_counterexample`.) -/
theorem c1_chunk_count_matches_run (L p fuel : Nat) (s : ChunkedHasher)
    (H : List Nat → List Nat) (data : Nat → Nat)
    (hcons : ChunkedHasher.fixed_chunks L p = Except.ok s ∨
             ChunkedHasher.dynamic_chunks L p = Except.ok s)
    (h53 : L ≤ 2 ^ 53) (hfuel : L ≤ fuel) :
    s.chunk_count = cdiv L s.chunk_size ∧
    (ChunkedHasher.run H (goodSrc data L) fuel 0 s).length = s.chunk_count := by
  obtain ⟨hss, hnc, hrd, hcs0, hcsL, hL, hp⟩ := constructed_shape L p s hcons
  have hseq : s = ⟨s.chunk_size, 0, 0, L⟩ := by
    obtain ⟨cs, nc, rd, ss⟩ := s
    dsimp only at hss hnc hrd ⊢
    rw [hss, hnc, hrd]
  have hcc : s.chunk_count = cdiv L s.chunk_size := by
    have h := chunk_count_exact s hcs0 (by rw [hss]; exact hcsL) (by rw [hss]; exact h53)
    rw [hss] at h
    exact h
  refine ⟨hcc, ?_⟩
  rw [hcc]
  conv_lhs => rw [hseq]
  rw [run_goodSrc_zero H data L s.chunk_size fuel hcs0, List.length_map,
    List.length_range']
  have hle := cdiv_le_self L s.chunk_size hcs0
  omega

/-- C1 counterexample: the claim as stated fails at
`fixed_chunks (2^53 + 1) 1`, whose `chunk_count()` is `2^53`, one less
than the exact ceiling `⌈(2^53 + 1) / 1⌉ = 2^53 + 1`. -/
theorem c1_counterexample :
    ChunkedHasher.fixed_chunks (2 ^ 53 + 1) 1 =
      Except.ok ⟨1, 0, 0, 2 ^ 53 + 1⟩ ∧
    ChunkedHasher.chunk_count ⟨1, 0, 0, 2 ^ 53 + 1⟩ ≠ cdiv (2 ^ 53 + 1) 1 := by
  constructor
  · rw [fixed_chunks_ok _ _ (by norm_num) (by norm_num)]
    norm_num
  · rw [chunk_count_big, cdiv_one]
    norm_num

theorem c1_witness :
    ChunkedHasher.fixed_chunks 10 3 = Except.ok ⟨3, 0, 0, 10⟩ ∧
    (ChunkedHasher.chunk_count ⟨3, 0, 0, 10⟩ = cdiv 10 3 ∧
      (ChunkedHasher.run (fun l => l) (goodSrc (fun _ => 7) 10) 10 0
        ⟨3, 0, 0, 10⟩).length = ChunkedHasher.chunk_count ⟨3, 0, 0, 10⟩) :=
  ⟨rfl,
    c1_chunk_count_matches_run 10 3 10 ⟨3, 0, 0, 10⟩ (fun l => l) (fun _ => 7)
      (Or.inl rfl) (by norm_num) (by norm_num)⟩

/-- C2: for `L > 0` and fixed size `S > 0`, `fixed_chunks` succeeds with
effective chunk size `min S L`, which never exceeds the stream length, is
positive, and at least one descriptor is produced over a well-behaved
source. -/
theorem c2_fixed_min (L S fuel : Nat) (H : List Nat → List Nat) (data : Nat → Nat)
    (hL : 0 < L) (hS : 0 < S) (hfuel : 0 < fuel) :
    ChunkedHasher.fixed_chunks L S = Except.ok ⟨min S L, 0, 0, L⟩ ∧
    min S L ≤ L ∧ 0 < min S L ∧
    0 < (ChunkedHasher.run H (goodSrc data L) fuel 0 ⟨min S L, 0, 0, L⟩).length := by
  have hmin : (if S ≤ L then S else L) = min S L := Nat.min_def.symm
  refine ⟨?_, Nat.min_le_right S L, by omega, ?_⟩
  · rw [fixed_chunks_ok L S hL hS, hmin]
  · rw [run_goodSrc_zero H data L (min S L) fuel (by omega), List.length_map,
      List.length_range']
    have h1 : 0 < cdiv L (min S L) := cdiv_pos L _ (by omega) hL
    omega

theorem c2_witness :
    ChunkedHasher.fixed_chunks 5 8 = Except.ok ⟨min 8 5, 0, 0, 5⟩ ∧
    min 8 5 ≤ 5 ∧ 0 < min 8 5 ∧
    0 < (ChunkedHasher.run (fun l => l) (goodSrc (fun _ => 1) 5) 1 0
      ⟨min 8 5, 0, 0, 5⟩).length :=
  c2_fixed_min 5 8 1 (fun l => l) (fun _ => 1) (by decide) (by decide) (by decide)

/-- C3 (amended): for `L > 0` and target count `N > 0`, `dynamic_chunks`
succeeds; its effective chunk size is the floor `L / N` when `N ≤ L` (the
division remainder is discarded), and `L` itself when `N > L`, in which
case the iterator yields exactly one chunk holding everything.  In the
`N ≤ L` case the number of chunks over a well-behaved source is
`⌈L / (L / N)⌉`: the undistributed leftover bytes form extra trailing
chunks, but not necessarily a single one and not necessarily smaller than
`chunk_size` (see `c3_counterexample`). -/
theorem c3_dynamic_sizing (L N fuel : Nat) (H : List Nat → List Nat) (data : Nat → Nat)
    (hL : 0 < L) (hN : 0 < N) (hfuel : L ≤ fuel) :
    (N ≤ L → ChunkedHasher.dynamic_chunks L N = Except.ok ⟨L / N, 0, 0, L⟩ ∧
      (ChunkedHasher.run H (goodSrc data L) fuel 0 ⟨L / N, 0, 0, L⟩).length =
        cdiv L (L / N)) ∧
    (L < N → ChunkedHasher.dynamic_chunks L N = Except.ok ⟨L, 0, 0, L⟩ ∧
      (ChunkedHasher.run H (goodSrc data L) fuel 0 ⟨L, 0, 0, L⟩).length = 1) := by
  constructor
  · intro hNL
    have hq : 0 < L / N := Nat.div_pos hNL hN
    refine ⟨?_, ?_⟩
    · rw [dynamic_chunks_ok L N hL hN, if_pos hNL, sub_mod_div L N hN]
    · rw [run_goodSrc_zero H data L (L / N) fuel hq, List.length_map,
        List.length_range']
      have h1 := cdiv_le_self L (L / N) hq
      omega
  · intro hLN
    refine ⟨?_, ?_⟩
    · rw [dynamic_chunks_ok L N hL hN, if_neg (by omega)]
    · rw [run_goodSrc_zero H data L L fuel hL, List.length_map, List.length_range',
        cdiv_self_eq_one L hL]
      omega

/-- C3 counterexample to the claim's parenthetical "the remainder forms
one extra smaller trailing chunk": `dynamic_chunks 10 7` has
`chunk_size = floor(10/7) = 1` and, over a well-behaved source, emits ten
chunks — three more than the requested seven, every one of them of the
full chunk size `1`, none smaller. -/
theorem c3_counterexample :
    ChunkedHasher.dynamic_chunks 10 7 = Except.ok ⟨1, 0, 0, 10⟩ ∧
    (ChunkedHasher.run (fun l => l) (goodSrc (fun _ => 0) 10) 10 0
      ⟨1, 0, 0, 10⟩).map Chunk.size = List.replicate 10 1 := by
  refine ⟨rfl, ?_⟩
  decide

theorem c3_witness :
    (ChunkedHasher.dynamic_chunks 6 4 = Except.ok ⟨1, 0, 0, 6⟩ ∧
      (ChunkedHasher.run (fun l => l) (goodSrc (fun _ => 2) 6) 6 0
        ⟨1, 0, 0, 6⟩).length = cdiv 6 1) ∧
    (ChunkedHasher.dynamic_chunks 3 5 = Except.ok ⟨3, 0, 0, 3⟩ ∧
      (ChunkedHasher.run (fun l => l) (goodSrc (fun _ => 2) 3) 3 0
        ⟨3, 0, 0, 3⟩).length = 1) :=
  ⟨(c3_dynamic_sizing 6 4 6 (fun l => l) (fun _ => 2) (by decide) (by decide)
      (by decide)).1 (by decide),
    (c3_dynamic_sizing 3 5 3 (fun l => l) (fun _ => 2) (by decide) (by decide)
      (by decide)).2 (by decide)⟩

/-- C4: construction (either mode) succeeds exactly when both the stream
size and the sizing parameter are positive; otherwise an `InvalidArgument`
error is returned and no iterator exists. -/
theorem c4_invalid_argument (L p : Nat) :
    ((∃ s, ChunkedHasher.fixed_chunks L p = Except.ok s) ↔ 0 < L ∧ 0 < p) ∧
    ((∃ s, ChunkedHasher.dynamic_chunks L p = Except.ok s) ↔ 0 < L ∧ 0 < p) := by
  constructor
  · constructor
    · rintro ⟨s, hs⟩
      have h := constructed_shape L p s (Or.inl hs)
      exact ⟨h.2.2.2.2.2.1, h.2.2.2.2.2.2⟩
    · rintro ⟨hL, hp⟩
      exact ⟨_, fixed_chunks_ok L p hL hp⟩
  · constructor
    · rintro ⟨s, hs⟩
      have h := constructed_shape L p s (Or.inr hs)
      exact ⟨h.2.2.2.2.2.1, h.2.2.2.2.2.2⟩
    · rintro ⟨hL, hp⟩
      exact ⟨_, dynamic_chunks_ok L p hL hp⟩

/-- C6: on a successful (non-exhausted) step whose read returns `bytes`
(at most the buffer size), the iterator queries the source at absolute
offset `next_chunk * chunk_size` with a zero-initialized buffer of exactly
`chunk_size` bytes, and emits the descriptor whose index is the
pre-increment `next_chunk` (i.e. `next_chunk - 1` after the increment),
whose size is the number of bytes actually read, and whose hash is the
Digest Provider applied to the entire `chunk_size`-byte buffer including
the zero tail past the read bytes. -/
theorem c6_step_shape (H : List Nat → List Nat) (src : Nat → Nat → Nat → StepResp)
    (t : Nat) (s : ChunkedHasher) (bytes : List Nat)
    (hactive : s.read_data < s.stream_size)
    (hresp : src t (s.next_chunk * s.chunk_size) s.chunk_size = StepResp.readOk bytes)
    (hlen : bytes.length ≤ s.chunk_size) :
    ChunkedHasher.next H src t s =
      (some { index := s.next_chunk, size := bytes.length,
              hash := H (bytes ++ List.replicate (s.chunk_size - bytes.length) 0) },
        { s with next_chunk := s.next_chunk + 1,
                 read_data := s.read_data + bytes.length }) := by
  have htake : bytes.take s.chunk_size = bytes := List.take_of_length_le hlen
  rw [next_readOk H src t s bytes (by omega) hresp, htake]

theorem c6_witness :
    ChunkedHasher.next (fun l => l) (fun _ _ _ => StepResp.readOk [5, 6]) 0
      ⟨2, 0, 0, 4⟩ =
      (some { index := 0, size := 2, hash := [5, 6] },
        { chunk_size := 2, next_chunk := 1, read_data := 2, stream_size := 4 }) :=
  c6_step_shape (fun l => l) (fun _ _ _ => StepResp.readOk [5, 6]) 0
    ⟨2, 0, 0, 4⟩ [5, 6] (by decide) rfl (by decide)

/-- C5 (amended): over a well-behaved source (all seeks succeed, every
read returns `min(chunk_size, remaining declared bytes)`), a constructed
iterator emits descriptors whose `index` values are exactly
`0, 1, …, ⌈L / chunk_size⌉ - 1` in order, and whose `size` values sum to
exactly the declared stream size.  (`⌈L / chunk_size⌉` equals
`chunk_count()` whenever `L ≤ 2^53`, but not in general — see
`c5_counterexample`.) -/
theorem c5_dense_indices_sum (L p fuel : Nat) (s : ChunkedHasher)
    (H : List Nat → List Nat) (data : Nat → Nat)
    (hcons : ChunkedHasher.fixed_chunks L p = Except.ok s ∨
             ChunkedHasher.dynamic_chunks L p = Except.ok s)
    (hfuel : L ≤ fuel) :
    (ChunkedHasher.run H (goodSrc data L) fuel 0 s).map Chunk.index =
      List.range' 0 (cdiv L s.chunk_size) ∧
    ((ChunkedHasher.run H (goodSrc data L) fuel 0 s).map Chunk.size).sum = L := by
  obtain ⟨hss, hnc, hrd, hcs0, hcsL, hL, hp⟩ := constructed_shape L p s hcons
  have hseq : s = ⟨s.chunk_size, 0, 0, L⟩ := by
    obtain ⟨cs, nc, rd, ss⟩ := s
    dsimp only at hss hnc hrd ⊢
    rw [hss, hnc, hrd]
  have hle := cdiv_le_self L s.chunk_size hcs0
  have hminf : min fuel (cdiv L s.chunk_size) = cdiv L s.chunk_size := by omega
  constructor
  · conv_lhs => rw [hseq]
    rw [run_goodSrc_zero H data L s.chunk_size fuel hcs0, indices_of_goodChunks, hminf]
  · conv_lhs => rw [hseq]
    rw [run_goodSrc_zero H data L s.chunk_size fuel hcs0, hminf]
    have hcomp : ((List.range' 0 (cdiv L s.chunk_size)).map
        (goodChunk H data L s.chunk_size)).map Chunk.size =
        (List.range' 0 (cdiv L s.chunk_size)).map
          (fun i => min s.chunk_size (L - i * s.chunk_size)) := by
      simp [goodChunk, Function.comp_def]
    rw [hcomp, sum_sizes]
    have h1 := le_cdiv_mul L s.chunk_size hcs0
    omega

/-- C5 counterexample: for `fixed_chunks (2^53 + 1) 1` over a well-behaved
source the emitted indices are `0, …, 2^53` — not
`0, …, chunk_count() - 1`, because `chunk_count()` is `2^53`, one short. -/
theorem c5_counterexample :
    ChunkedHasher.fixed_chunks (2 ^ 53 + 1) 1 =
      Except.ok ⟨1, 0, 0, 2 ^ 53 + 1⟩ ∧
    (ChunkedHasher.run (fun l => l) (goodSrc (fun _ => 0) (2 ^ 53 + 1)) (2 ^ 53 + 1) 0
        ⟨1, 0, 0, 2 ^ 53 + 1⟩).map Chunk.index ≠
      List.range' 0 (ChunkedHasher.chunk_count ⟨1, 0, 0, 2 ^ 53 + 1⟩) := by
  constructor
  · rw [fixed_chunks_ok _ _ (by norm_num) (by norm_num)]
    norm_num
  · rw [run_goodSrc_zero _ _ _ 1 _ (by norm_num), indices_of_goodChunks,
      chunk_count_big, cdiv_one, Nat.min_self]
    intro hc
    have h1 := congrArg List.length hc
    rw [List.length_range', List.length_range'] at h1
    norm_num at h1

theorem c5_witness :
    (ChunkedHasher.run (fun l => l) (goodSrc (fun _ => 1) 7) 7 0
        ⟨3, 0, 0, 7⟩).map Chunk.index = List.range' 0 (cdiv 7 3) ∧
    ((ChunkedHasher.run (fun l => l) (goodSrc (fun _ => 1) 7) 7 0
        ⟨3, 0, 0, 7⟩).map Chunk.size).sum = 7 :=
  c5_dense_indices_sum 7 3 7 ⟨3, 0, 0, 7⟩ (fun l => l) (fun _ => 1)
    (Or.inl rfl) (by norm_num)

/-- C7 (amended): a step whose seek or read fails yields no descriptor,
and as long as the source keeps failing, every call yields `None`.  The
failure is swallowed as end-of-sequence, but it is not a sticky terminal
state: the code stores no failure flag, so a later call retries (see
`c7_counterexample`, where a descriptor is produced after a failed
step). -/
theorem c7_failures_swallowed (H : List Nat → List Nat)
    (src : Nat → Nat → Nat → StepResp) (t fuel : Nat) (s : ChunkedHasher)
    (hfail : src t (s.next_chunk * s.chunk_size) s.chunk_size = StepResp.seekFail ∨
             src t (s.next_chunk * s.chunk_size) s.chunk_size = StepResp.readFail) :
    (ChunkedHasher.next H src t s).1 = none ∧
    ((∀ u off sz, src u off sz = StepResp.seekFail ∨ src u off sz = StepResp.readFail) →
      ChunkedHasher.callResults H src fuel t s = List.replicate fuel none) := by
  constructor
  · by_cases hex : s.stream_size ≤ s.read_data
    · rw [next_exhausted H src t s hex]
    · rcases hfail with h | h
      · rw [next_seekFail H src t s hex h]
      · rw [next_readFail H src t s hex h]
  · intro hall
    exact callResults_all_fail H src hall fuel t s

/-- C7 counterexample: over a source whose first seek fails and which then
recovers, the first call yields no descriptor but the second call produces
one — the failed state is not terminal. -/
theorem c7_counterexample :
    ChunkedHasher.callResults (fun l => l)
        (fun u _ _ => if u = 0 then StepResp.seekFail else StepResp.readOk [9]) 2 0
        ⟨1, 0, 0, 1⟩ =
      [none, some { index := 0, size := 1, hash := [9] }] := by
  decide

theorem c7_witness :
    (ChunkedHasher.next (fun l => l) (fun _ _ _ => StepResp.seekFail) 0
      ⟨1, 0, 0, 5⟩).1 = none ∧
    ChunkedHasher.callResults (fun l => l) (fun _ _ _ => StepResp.seekFail) 3 0
      ⟨1, 0, 0, 5⟩ = List.replicate 3 none :=
  have h := c7_failures_swallowed (fun l => l) (fun _ _ _ => StepResp.seekFail) 0 3
    ⟨1, 0, 0, 5⟩ (Or.inl rfl)
  ⟨h.1, h.2 (fun _ _ _ => Or.inl rfl)⟩

/-- C8 (amended): `next` returns `None` once `read_data ≥ stream_size`;
and for every source whose successful reads deliver at least one byte, at
most `stream_size - read_data` descriptors are ever emitted (even by a
caller that keeps calling past `None`), so the sequence is finite.
Without the progress assumption the `chunk_count()` bound is false: a
source that keeps returning zero-byte reads makes the iterator produce
descriptors forever — see `c8_counterexample`. -/
theorem c8_bounded (H : List Nat → List Nat) (src : Nat → Nat → Nat → StepResp)
    (fuel t : Nat) (s : ChunkedHasher) (hpos : 0 < s.chunk_size)
    (hsrc : ∀ u off sz bs, src u off sz = StepResp.readOk bs → bs ≠ []) :
    (s.stream_size ≤ s.read_data → (ChunkedHasher.next H src t s).1 = none) ∧
    producedCount (ChunkedHasher.callResults H src fuel t s) ≤
      s.stream_size - s.read_data := by
  refine ⟨fun hex => ?_, producedCount_le H src hsrc fuel t s hpos⟩
  rw [next_exhausted H src t s hex]

/-- C8 counterexample: the iterator of `fixed_chunks 1 1` has
`chunk_count() = 1`, yet over a source whose reads return zero bytes it
emits a descriptor on both of the first two calls — more than
`chunk_count()` descriptors, and this continues forever. -/
theorem c8_counterexample :
    ChunkedHasher.chunk_count ⟨1, 0, 0, 1⟩ = 1 ∧
    producedCount (ChunkedHasher.callResults (fun l => l)
      (fun _ _ _ => StepResp.readOk []) 2 0 ⟨1, 0, 0, 1⟩) = 2 := by
  constructor
  · rw [chunk_count_exact ⟨1, 0, 0, 1⟩ (by decide) (by decide) (by norm_num)]
    decide
  · decide

theorem c8_witness :
    (ChunkedHasher.next (fun l => l) (fun _ _ _ => StepResp.readOk [1]) 0
      ⟨1, 0, 2, 2⟩).1 = none ∧
    producedCount (ChunkedHasher.callResults (fun l => l)
      (fun _ _ _ => StepResp.readOk [1]) 5 0 ⟨1, 0, 2, 2⟩) ≤ 0 :=
  have h := c8_bounded (fun l => l) (fun _ _ _ => StepResp.readOk [1]) 5 0 ⟨1, 0, 2, 2⟩
    (by decide) (fun u off sz bs hb => by cases hb; decide)
  ⟨h.1 (by decide), h.2⟩

/-- C9: iteration is deterministic.  Two runs with the same construction
mode, stream size, sizing parameter, and digest function, over
well-behaved sources whose byte contents agree on the declared stream,
emit identical descriptor sequences. -/
theorem c9_deterministic (L p fuel : Nat) (s : ChunkedHasher)
    (H : List Nat → List Nat) (d1 d2 : Nat → Nat)
    (hcons : ChunkedHasher.fixed_chunks L p = Except.ok s ∨
             ChunkedHasher.dynamic_chunks L p = Except.ok s)
    (hagree : ∀ i, i < L → d1 i = d2 i) :
    ChunkedHasher.run H (goodSrc d1 L) fuel 0 s =
      ChunkedHasher.run H (goodSrc d2 L) fuel 0 s := by
  obtain ⟨hss, hnc, hrd, hcs0, hcsL, hL, hp⟩ := constructed_shape L p s hcons
  have hseq : s = ⟨s.chunk_size, 0, 0, L⟩ := by
    obtain ⟨cs, nc, rd, ss⟩ := s
    dsimp only at hss hnc hrd ⊢
    rw [hss, hnc, hrd]
  rw [hseq, run_goodSrc_zero H d1 L s.chunk_size fuel hcs0,
    run_goodSrc_zero H d2 L s.chunk_size fuel hcs0]
  apply List.map_congr_left
  intro i hi
  rw [List.mem_range'_1] at hi
  have hik : i < cdiv L s.chunk_size := by omega
  have hiS : i * s.chunk_size < L := (lt_cdiv_iff L s.chunk_size i hcs0).mp hik
  simp only [goodChunk]
  have hmap : (List.range' (i * s.chunk_size)
      (min s.chunk_size (L - i * s.chunk_size))).map d1 =
      (List.range' (i * s.chunk_size)
        (min s.chunk_size (L - i * s.chunk_size))).map d2 := by
    apply List.map_congr_left
    intro j hj
    rw [List.mem_range'_1] at hj
    apply hagree
    omega
  rw [hmap]

theorem c9_witness :
    ChunkedHasher.run (fun l => l) (goodSrc (fun _ => 3) 4) 4 0 ⟨2, 0, 0, 4⟩ =
      ChunkedHasher.run (fun l => l) (goodSrc (fun i => if i < 4 then 3 else 9) 4) 4 0
        ⟨2, 0, 0, 4⟩ :=
  c9_deterministic 4 2 4 ⟨2, 0, 0, 4⟩ (fun l => l) (fun _ => 3)
    (fun i => if i < 4 then 3 else 9) (Or.inl rfl) (fun i hi => by simp [hi])

/-- C10: for `0 < N ≤ L`, `dynamic_chunks L N` constructs exactly the same
iterator as `fixed_chunks L (L / N)` — literally the same state, hence
the same `chunk_size`, the same `chunk_count()`, and identical descriptor
sequences over any source. -/
theorem c10_dynamic_eq_fixed (L N : Nat) (hN : 0 < N) (hNL : N ≤ L) :
    ChunkedHasher.dynamic_chunks L N = ChunkedHasher.fixed_chunks L (L / N) := by
  have hL : 0 < L := by omega
  have hq : 0 < L / N := Nat.div_pos hNL hN
  rw [dynamic_chunks_ok L N hL hN, fixed_chunks_ok L (L / N) hL hq, if_pos hNL,
    if_pos (Nat.div_le_self L N), sub_mod_div L N hN]

theorem c10_witness :
    ChunkedHasher.dynamic_chunks 10 4 = ChunkedHasher.fixed_chunks 10 2 :=
  c10_dynamic_eq_fixed 10 4 (by decide) (by decide)
